import Mathlib

/-!
# Verification of a binary-addition Turing machine

Shallow embedding of `src/main.rs` from the `binary-addition-turing-machine`
repository: a single-tape Turing machine whose rule table performs binary
addition of two operands written on the tape around a `'+'` separator.

The tape is a `List Char` (mirroring Rust's `Vec<char>`), the head a `Nat`
index, and the rule table a function `State → Char → Option (Char × Direction
× State)` (mirroring the `HashMap<(State, char), (char, Direction, State)>`
with its `get` lookup).  Indexing the tape is fallible in the source
(`self.tape[self.head]` panics out of bounds), so `step` returns `Option`.
-/

namespace BinAdd

/-- The control states of the machine, mirroring `enum State` in the source. -/
inductive State where
  | FindPlus
  | GetLast
  | AddOne
  | AddZero
  | AddDigitZero
  | AddDigitOne
  | Carry
  | BackToStart
  | Halt
deriving DecidableEq, Repr

/-- Head movement direction, mirroring `enum Direction`. -/
inductive Direction where
  | Left
  | Right
deriving DecidableEq, Repr

/-- The machine: tape, head position, control state and rule table,
mirroring `struct TuringMachine`. -/
structure TuringMachine where
  tape : List Char
  head : Nat
  state : State
  rules : State → Char → Option (Char × Direction × State)

/-- Constructor mirroring `TuringMachine::new`: head at position 0, initial
state `FindPlus`. -/
def TuringMachine.new (tape : List Char)
    (rules : State → Char → Option (Char × Direction × State)) :
    TuringMachine :=
  { tape := tape, head := 0, state := State.FindPlus, rules := rules }

/-- One step of the machine, mirroring `TuringMachine::step`.  Reading the
cell under the head is fallible (`self.tape[self.head]` in Rust panics when
out of bounds), hence the `Option`.  When a rule matches, the cell is
overwritten, the head moves (growing the tape by one blank cell when it
would leave the current bounds), and the state changes; when no rule
matches, the state becomes `Halt` and nothing else changes. -/
def TuringMachine.step (m : TuringMachine) : Option TuringMachine :=
  match m.tape[m.head]? with
  | none => none
  | some currentSymbol =>
    match m.rules m.state currentSymbol with
    | none => some { m with state := State.Halt }
    | some (write, direction, nextState) =>
      let t := m.tape.set m.head write
      match direction with
      | Direction.Left =>
        if 0 < m.head then
          some { tape := t, head := m.head - 1, state := nextState, rules := m.rules }
        else
          some { tape := '_' :: t, head := 0, state := nextState, rules := m.rules }
      | Direction.Right =>
        if m.head + 1 ≥ t.length then
          some { tape := t ++ ['_'], head := m.head + 1, state := nextState, rules := m.rules }
        else
          some { tape := t, head := m.head + 1, state := nextState, rules := m.rules }

/-- Iterated `step`: runs the machine for a given number of steps. -/
def TuringMachine.stepsN : Nat → TuringMachine → Option TuringMachine
  | 0, m => some m
  | n + 1, m => (m.step).bind (TuringMachine.stepsN n)

/-- A trace record: the tape, head index and state printed by `run`. -/
def TuringMachine.cfg (m : TuringMachine) : List Char × Nat × State :=
  (m.tape, m.head, m.state)

/-- Reachability: the configuration `m'` arises from `m` after finitely many
steps. -/
def TuringMachine.Reaches (m m' : TuringMachine) : Prop :=
  ∃ n, TuringMachine.stepsN n m = some m'

/-- The run loop `TuringMachine::run`, with explicit fuel standing in for the unbounded
`while` loop: before each step the machine emits the current tape, head and
state (the `println!` in the loop), and after reaching `Halt` it emits one
final record.  `none` means the fuel ran out before `Halt` was reached (the
Rust loop would still be running). -/
def TuringMachine.run :
    Nat → TuringMachine → Option (List (List Char × Nat × State) × TuringMachine)
  | 0, _ => none
  | fuel + 1, m =>
    if m.state = State.Halt then
      some ([m.cfg], m)
    else
      (m.step).bind fun m' =>
        (TuringMachine.run fuel m').map fun (tr, mf) => (m.cfg :: tr, mf)

/-- The rule table built in `main` by the 27 `rules.insert` calls. -/
def additionRules : State → Char → Option (Char × Direction × State)
  | State.FindPlus, '_' => some ('_', Direction.Right, State.FindPlus)
  | State.FindPlus, '1' => some ('1', Direction.Right, State.FindPlus)
  | State.FindPlus, '0' => some ('0', Direction.Right, State.FindPlus)
  | State.FindPlus, '+' => some ('+', Direction.Left, State.GetLast)
  | State.GetLast, '0' => some ('+', Direction.Right, State.AddZero)
  | State.AddZero, '1' => some ('1', Direction.Right, State.AddZero)
  | State.AddZero, '0' => some ('0', Direction.Right, State.AddZero)
  | State.AddZero, '+' => some ('+', Direction.Right, State.AddZero)
  | State.AddZero, 'I' => some ('I', Direction.Left, State.AddDigitZero)
  | State.AddZero, 'O' => some ('O', Direction.Left, State.AddDigitZero)
  | State.AddZero, '_' => some ('_', Direction.Left, State.AddDigitZero)
  | State.AddDigitZero, '1' => some ('I', Direction.Left, State.BackToStart)
  | State.AddDigitZero, '0' => some ('O', Direction.Left, State.BackToStart)
  | State.AddDigitZero, '+' => some ('O', Direction.Left, State.BackToStart)
  | State.GetLast, '1' => some ('+', Direction.Right, State.AddOne)
  | State.AddOne, '1' => some ('1', Direction.Right, State.AddOne)
  | State.AddOne, '0' => some ('0', Direction.Right, State.AddOne)
  | State.AddOne, '+' => some ('+', Direction.Right, State.AddOne)
  | State.AddOne, '_' => some ('_', Direction.Left, State.AddDigitOne)
  | State.AddOne, 'I' => some ('I', Direction.Left, State.AddDigitOne)
  | State.AddOne, 'O' => some ('O', Direction.Left, State.AddDigitOne)
  | State.AddDigitOne, '1' => some ('O', Direction.Left, State.Carry)
  | State.AddDigitOne, '0' => some ('I', Direction.Left, State.BackToStart)
  | State.AddDigitOne, '+' => some ('I', Direction.Left, State.BackToStart)
  | State.Carry, '0' => some ('1', Direction.Left, State.BackToStart)
  | State.Carry, '1' => some ('0', Direction.Left, State.Carry)
  | State.Carry, '+' => some ('1', Direction.Left, State.BackToStart)
  | State.BackToStart, '0' => some ('0', Direction.Left, State.BackToStart)
  | State.BackToStart, '1' => some ('1', Direction.Left, State.BackToStart)
  | State.BackToStart, '+' => some ('+', Direction.Left, State.BackToStart)
  | State.BackToStart, '_' => some ('_', Direction.Right, State.FindPlus)
  | _, _ => none

/-- The hardcoded example tape from `main`. -/
def exampleTape : List Char :=
  ['_', '1', '0', '1', '0', '0', '1', '1', '0', '1', '1', '+', '1', '0', '1', '1', '_']

/-- The character for an unmarked binary digit: `true ↦ '1'`, `false ↦ '0'`. -/
def digitChar (b : Bool) : Char := if b then '1' else '0'

/-- The character for a marked binary digit: `true ↦ 'I'`, `false ↦ 'O'`. -/
def markChar (b : Bool) : Char := if b then 'I' else 'O'

/-- Value of a big-endian list of binary digits. -/
def boolsVal (l : List Bool) : Nat :=
  l.foldl (fun acc b => 2 * acc + b.toNat) 0

/-- An initial tape: `a` blanks, the digits of the first operand, the `'+'`
separator, the digits of the second operand, `b` blanks. -/
def initTape (a : Nat) (xs ys : List Bool) (b : Nat) : List Char :=
  List.replicate a '_' ++ xs.map digitChar ++ '+' :: ys.map digitChar
    ++ List.replicate b '_'

/-- A run of `n` blank cells. -/
def blanks (n : Nat) : List Char := List.replicate n '_'

/-- A run of `n` separator cells. -/
def pluses (n : Nat) : List Char := List.replicate n '+'

/-- Unmarked digit cells for a digit string. -/
def digits (l : List Bool) : List Char := l.map digitChar

/-- Marked digit cells for a digit string. -/
def marks (l : List Bool) : List Char := l.map markChar

/-- The general shape of the tape while the machine is adding: leading
blanks, the unconsumed first-operand digits, a run of separators, the
still-unmarked second-operand digits, the marked result digits, trailing
blanks. -/
def tapeOf (a : Nat) (xs : List Bool) (p : Nat) (ys ms : List Bool) (b : Nat) :
    List Char :=
  blanks a ++ digits xs ++ pluses p ++ digits ys ++ marks ms ++ blanks b

/-- The first operand written on the example tape, as binary digits. -/
def op1Bools : List Bool :=
  [true, false, true, false, false, true, true, false, true, true]

/-- The second operand written on the example tape, as binary digits. -/
def op2Bools : List Bool := [true, false, true, true]

/-- The binary digits of 678 = 667 + 11, the sum of the example operands. -/
def sumBools : List Bool :=
  [true, false, true, false, true, false, false, true, true, false]

/-- The tape on which the machine started from `exampleTape` halts. -/
def exampleFinalTape : List Char :=
  '_' :: (List.replicate 5 '+' ++ sumBools.map markChar ++ ['_'])

/-! ## Basic list helpers -/

theorem getAt (front : List Char) (c : Char) (rest : List Char) :
    (front ++ c :: rest)[front.length]? = some c := by
  induction front with
  | nil => simp
  | cons a l ih => simpa using ih

theorem getAtT (front : List Char) (c : Char) (rest : List Char)
    (h : front.length < (front ++ c :: rest).length) :
    (front ++ c :: rest)[front.length] = c := by
  induction front with
  | nil => simp
  | cons a l ih => simpa using ih (by simp)

theorem setAt (front : List Char) (c w : Char) (rest : List Char) :
    (front ++ c :: rest).set front.length w = front ++ w :: rest := by
  induction front with
  | nil => rfl
  | cons a l ih => simp [List.set, ih]

/-! ## Single-step characterisation lemmas -/

namespace TuringMachine

theorem step_no_rule (R : State → Char → Option (Char × Direction × State))
    (s : State) (c : Char) (front rest : List Char) (hr : R s c = none) :
    step ⟨front ++ c :: rest, front.length, s, R⟩ =
      some ⟨front ++ c :: rest, front.length, State.Halt, R⟩ := by
  simp [step, getAt, getAtT, hr]

theorem step_right (R : State → Char → Option (Char × Direction × State))
    (s : State) (c w : Char) (s' : State) (front rest : List Char)
    (hr : R s c = some (w, Direction.Right, s')) (hrest : rest ≠ []) :
    step ⟨front ++ c :: rest, front.length, s, R⟩ =
      some ⟨front ++ w :: rest, front.length + 1, s', R⟩ := by
  simp [step, getAt, getAtT, hr, setAt, hrest]

theorem step_right_push (R : State → Char → Option (Char × Direction × State))
    (s : State) (c w : Char) (s' : State) (front : List Char)
    (hr : R s c = some (w, Direction.Right, s')) :
    step ⟨front ++ [c], front.length, s, R⟩ =
      some ⟨front ++ [w, '_'], front.length + 1, s', R⟩ := by
  have h1 : front ++ [c] = front ++ c :: [] := rfl
  simp [step, h1, getAt, getAtT, hr, setAt]

theorem step_left (R : State → Char → Option (Char × Direction × State))
    (s : State) (c w : Char) (s' : State) (front rest : List Char)
    (hr : R s c = some (w, Direction.Left, s')) (hfront : front ≠ []) :
    step ⟨front ++ c :: rest, front.length, s, R⟩ =
      some ⟨front ++ w :: rest, front.length - 1, s', R⟩ := by
  have hpos : 0 < front.length := List.length_pos.mpr hfront
  simp [step, getAt, getAtT, hr, setAt, hpos]

theorem step_left_zero (R : State → Char → Option (Char × Direction × State))
    (s : State) (c w : Char) (s' : State) (rest : List Char)
    (hr : R s c = some (w, Direction.Left, s')) :
    step ⟨c :: rest, 0, s, R⟩ = some ⟨'_' :: w :: rest, 0, s', R⟩ := by
  simp [step, hr, List.set]

/-! ## Iteration and reachability -/

theorem stepsN_add (a b : Nat) (m : TuringMachine) :
    stepsN (a + b) m = (stepsN a m).bind (stepsN b) := by
  induction a generalizing m with
  | zero => simp [stepsN]
  | succ n ih =>
    have : n + 1 + b = (n + b) + 1 := by omega
    rw [this]
    simp [stepsN, Option.bind_assoc]
    cases m.step with
    | none => rfl
    | some m' => simp [ih m']

theorem Reaches.refl (m : TuringMachine) : Reaches m m := ⟨0, rfl⟩

theorem Reaches.trans {m₁ m₂ m₃ : TuringMachine}
    (h₁ : Reaches m₁ m₂) (h₂ : Reaches m₂ m₃) : Reaches m₁ m₃ := by
  obtain ⟨n₁, h₁⟩ := h₁
  obtain ⟨n₂, h₂⟩ := h₂
  exact ⟨n₁ + n₂, by rw [stepsN_add, h₁]; exact h₂⟩

theorem Reaches.single {m m' : TuringMachine} (h : step m = some m') :
    Reaches m m' := ⟨1, by simp [stepsN, h]⟩

theorem Reaches.head {m m₁ m₂ : TuringMachine} (h : step m = some m₁)
    (h₂ : Reaches m₁ m₂) : Reaches m m₂ :=
  (Reaches.single h).trans h₂

/-- Transport a reachability fact across equalities of the tape and head
components. -/
theorem Reaches.cast {t₁ t₁' t₂ t₂' : List Char} {h₁ h₁' h₂ h₂' : Nat}
    {s₁ s₂ : State} {R : State → Char → Option (Char × Direction × State)}
    (H : Reaches ⟨t₁, h₁, s₁, R⟩ ⟨t₂, h₂, s₂, R⟩)
    (ht₁ : t₁ = t₁') (hh₁ : h₁ = h₁') (ht₂ : t₂ = t₂') (hh₂ : h₂ = h₂') :
    Reaches ⟨t₁', h₁', s₁, R⟩ ⟨t₂', h₂', s₂, R⟩ := by
  subst ht₁; subst hh₁; subst ht₂; subst hh₂; exact H

/-! ## Scanning lemmas: running over a block of cells whose rules rewrite the
same symbol and keep moving in the same state. -/

theorem scan_right (s : State) (R : State → Char → Option (Char × Direction × State))
    (mid : List Char) :
    ∀ front rest : List Char, rest ≠ [] →
      (∀ c ∈ mid, R s c = some (c, Direction.Right, s)) →
      Reaches ⟨front ++ mid ++ rest, front.length, s, R⟩
        ⟨front ++ mid ++ rest, front.length + mid.length, s, R⟩ := by
  induction mid with
  | nil =>
    intro front rest _ _
    simpa using Reaches.refl _
  | cons c mid ih =>
    intro front rest hrest hskip
    have hstep : step ⟨front ++ (c :: mid) ++ rest, front.length, s, R⟩ =
        some ⟨front ++ c :: (mid ++ rest), front.length + 1, s, R⟩ := by
      have e1 : front ++ (c :: mid) ++ rest = front ++ c :: (mid ++ rest) := by simp
      rw [e1]
      exact step_right _ _ _ _ _ _ _ (hskip c (by simp)) (by simp [hrest])
    have h2 := ih (front ++ [c]) rest hrest (fun d hd => hskip d (by simp [hd]))
    have e2 : (front ++ [c]) ++ mid ++ rest = front ++ c :: (mid ++ rest) := by simp
    have e3 : (front ++ [c]).length = front.length + 1 := by simp
    have e4 : front.length + 1 + mid.length = front.length + (c :: mid).length := by
      simp; omega
    rw [e2, e3, e4] at h2
    refine Reaches.head hstep ?_
    have e5 : front ++ (c :: mid) ++ rest = front ++ c :: (mid ++ rest) := by simp
    rw [e5]
    exact h2

theorem scan_right_push (s : State)
    (R : State → Char → Option (Char × Direction × State))
    (mid front : List Char) (hne : mid ≠ [])
    (hskip : ∀ c ∈ mid, R s c = some (c, Direction.Right, s)) :
    Reaches ⟨front ++ mid, front.length, s, R⟩
      ⟨front ++ mid ++ ['_'], front.length + mid.length, s, R⟩ := by
  obtain ⟨mid₀, c, rfl⟩ := (List.eq_nil_or_concat mid).resolve_left hne
  have h1 : Reaches ⟨front ++ mid₀ ++ [c], front.length, s, R⟩
      ⟨front ++ mid₀ ++ [c], front.length + mid₀.length, s, R⟩ :=
    scan_right s R mid₀ front [c] (by simp)
      (fun d hd => hskip d (by simp [List.concat_eq_append, hd]))
  have h2 : step ⟨(front ++ mid₀) ++ [c], (front ++ mid₀).length, s, R⟩ =
      some ⟨(front ++ mid₀) ++ [c, '_'], (front ++ mid₀).length + 1, s, R⟩ :=
    step_right_push _ _ _ _ _ _ (hskip c (by simp [List.concat_eq_append]))
  have h3 : Reaches ⟨front ++ mid₀ ++ [c], front.length + mid₀.length, s, R⟩
      ⟨(front ++ mid₀) ++ [c, '_'], (front ++ mid₀).length + 1, s, R⟩ := by
    refine Reaches.single ?_
    rw [show front ++ mid₀ ++ [c] = (front ++ mid₀) ++ [c] by simp,
      show front.length + mid₀.length = (front ++ mid₀).length by simp]
    exact h2
  exact (h1.trans h3).cast (by simp [List.concat_eq_append]) rfl
    (by simp [List.concat_eq_append]) (by simp [List.concat_eq_append]; omega)

theorem scan_left (s : State) (R : State → Char → Option (Char × Direction × State))
    (mid : List Char) :
    ∀ front rest : List Char, front ≠ [] →
      (∀ c ∈ mid, R s c = some (c, Direction.Left, s)) →
      Reaches ⟨front ++ mid ++ rest, front.length + mid.length - 1, s, R⟩
        ⟨front ++ mid ++ rest, front.length - 1, s, R⟩ := by
  induction mid using List.reverseRecOn with
  | nil =>
    intro front rest _ _
    simpa using Reaches.refl _
  | append_singleton mid₀ c ih =>
    intro front rest hfront hskip
    have hstep : step ⟨(front ++ mid₀) ++ c :: rest, (front ++ mid₀).length, s, R⟩ =
        some ⟨(front ++ mid₀) ++ c :: rest, (front ++ mid₀).length - 1, s, R⟩ :=
      step_left _ _ _ _ _ _ _ (hskip c (by simp)) (by simp [hfront])
    have h2 := ih front (c :: rest) hfront (fun d hd => hskip d (by simp [hd]))
    have e1 : (front ++ mid₀) ++ c :: rest = front ++ (mid₀ ++ [c]) ++ rest := by simp
    have e2 : front ++ mid₀ ++ c :: rest = front ++ (mid₀ ++ [c]) ++ rest := by simp
    have e3 : (front ++ mid₀).length = front.length + mid₀.length := by simp
    rw [e1, e3] at hstep
    rw [e2] at h2
    have e4 : front.length + (mid₀ ++ [c]).length - 1 = front.length + mid₀.length := by
      simp
    rw [e4]
    exact Reaches.head hstep h2

end TuringMachine

/-! ## Arithmetic of digit strings -/

theorem boolsVal_concat (l : List Bool) (d : Bool) :
    boolsVal (l ++ [d]) = 2 * boolsVal l + d.toNat := by
  simp [boolsVal, List.foldl_append]

theorem boolsVal_append (u v : List Bool) :
    boolsVal (u ++ v) = boolsVal u * 2 ^ v.length + boolsVal v := by
  induction v using List.reverseRecOn with
  | nil => simp [boolsVal]
  | append_singleton v₀ d ih =>
    rw [← List.append_assoc, boolsVal_concat, ih, boolsVal_concat]
    simp [pow_succ]
    ring

/-! ## Which characters the scanning states skip over -/

theorem findPlus_skip {c : Char} (h : c = '_' ∨ c = '0' ∨ c = '1') :
    additionRules State.FindPlus c = some (c, Direction.Right, State.FindPlus) := by
  rcases h with rfl | rfl | rfl <;> rfl

theorem addZero_skip {c : Char} (h : c = '0' ∨ c = '1' ∨ c = '+') :
    additionRules State.AddZero c = some (c, Direction.Right, State.AddZero) := by
  rcases h with rfl | rfl | rfl <;> rfl

theorem addOne_skip {c : Char} (h : c = '0' ∨ c = '1' ∨ c = '+') :
    additionRules State.AddOne c = some (c, Direction.Right, State.AddOne) := by
  rcases h with rfl | rfl | rfl <;> rfl

theorem backToStart_skip {c : Char} (h : c = '0' ∨ c = '1' ∨ c = '+') :
    additionRules State.BackToStart c = some (c, Direction.Left, State.BackToStart) := by
  rcases h with rfl | rfl | rfl <;> rfl

theorem mem_blanks {c : Char} {n : Nat} (h : c ∈ blanks n) : c = '_' :=
  List.eq_of_mem_replicate h

theorem mem_pluses {c : Char} {n : Nat} (h : c ∈ pluses n) : c = '+' :=
  List.eq_of_mem_replicate h

theorem mem_digits {c : Char} {l : List Bool} (h : c ∈ digits l) :
    c = '0' ∨ c = '1' := by
  obtain ⟨b, _, rfl⟩ := List.mem_map.mp h
  cases b
  · exact Or.inl rfl
  · exact Or.inr rfl

theorem blanks_ne_nil {n : Nat} (h : 1 ≤ n) : blanks n ≠ [] := by
  simp [blanks]
  omega

theorem pluses_succ (n : Nat) : pluses (n + 1) = pluses n ++ ['+'] := by
  simp [pluses, List.replicate_succ']

theorem pluses_cons (n : Nat) : pluses (n + 1) = '+' :: pluses n := by
  simp [pluses, List.replicate_succ]

theorem blanks_succ (n : Nat) : blanks (n + 1) = blanks n ++ ['_'] := by
  simp [blanks, List.replicate_succ']

theorem digits_concat (l : List Bool) (d : Bool) :
    digits (l ++ [d]) = digits l ++ [digitChar d] := by
  simp [digits]

theorem blanks_add (m n : Nat) : blanks (m + n) = blanks m ++ blanks n :=
  List.replicate_add m n '_'

/-! ## The carry phase -/

/-- Running the `Carry` state: starting at the rightmost cell of the block
`pluses (p+1) ++ digits rys`, the machine flips the trailing `1`s of `rys`
to `0`s moving left and finally writes a `1` over the first `0` or over the
rightmost `'+'`, ending in `BackToStart`.  The block is rewritten in place
to `pluses p₂ ++ digits ys₂` with the digit string incremented by one. -/
theorem carry_run (a : Nat) (xs' : List Bool) :
    ∀ (rys : List Bool) (p : Nat) (tail : List Char), 1 ≤ p →
    ∃ p₂ ys₂ j,
      TuringMachine.Reaches
        ⟨blanks a ++ digits xs' ++ pluses (p + 1) ++ digits rys ++ tail,
          a + xs'.length + p + rys.length, State.Carry, additionRules⟩
        ⟨blanks a ++ digits xs' ++ pluses p₂ ++ digits ys₂ ++ tail,
          a + j, State.BackToStart, additionRules⟩ ∧
      1 ≤ p₂ ∧ p₂ + ys₂.length = p + 1 + rys.length ∧
      boolsVal ys₂ = boolsVal rys + 1 ∧ j < xs'.length + p₂ + ys₂.length := by
  intro rys
  induction rys using List.reverseRecOn with
  | nil =>
    intro p tail hp
    refine ⟨p, [true], xs'.length + p - 1, ?_, hp, by simp, by simp [boolsVal],
      by omega⟩
    have hfront : blanks a ++ digits xs' ++ pluses p ≠ [] := by
      simp [blanks, digits, pluses]
      omega
    have hstep := TuringMachine.step_left additionRules State.Carry '+' '1'
      State.BackToStart (blanks a ++ digits xs' ++ pluses p) tail rfl hfront
    refine (TuringMachine.Reaches.single hstep).cast ?_ ?_ ?_ ?_
    · simp [pluses_succ, digits]
    · simp [blanks, digits, pluses]
      omega
    · simp [digits, digitChar]
    · simp [blanks, digits, pluses]
      omega
  | append_singleton z y ih =>
    intro p tail hp
    cases y with
    | false =>
      refine ⟨p + 1, z ++ [true], xs'.length + p + z.length, ?_, by omega,
        by simp, ?_, by simp; omega⟩
      · have hfront : blanks a ++ digits xs' ++ pluses (p + 1) ++ digits z ≠ [] := by
          simp [blanks, digits, pluses]
        have hstep := TuringMachine.step_left additionRules State.Carry '0' '1'
          State.BackToStart (blanks a ++ digits xs' ++ pluses (p + 1) ++ digits z)
          tail rfl hfront
        refine (TuringMachine.Reaches.single hstep).cast ?_ ?_ ?_ ?_
        · simp [digits_concat, digitChar]
        · simp [blanks, digits, pluses]
          omega
        · simp [digits_concat, digitChar]
        · simp [blanks, digits, pluses]
          omega
      · rw [boolsVal_concat, boolsVal_concat]
        simp
    | true =>
      obtain ⟨p₂, ys₂', j, hreach, hp₂, hlen, hval, hj⟩ :=
        ih p (digitChar false :: tail) hp
      have hfront : blanks a ++ digits xs' ++ pluses (p + 1) ++ digits z ≠ [] := by
        simp [blanks, digits, pluses]
      have hstep := TuringMachine.step_left additionRules State.Carry '1' '0'
        State.Carry (blanks a ++ digits xs' ++ pluses (p + 1) ++ digits z)
        tail rfl hfront
      have hstep' : TuringMachine.step
          ⟨blanks a ++ digits xs' ++ pluses (p + 1) ++ digits (z ++ [true]) ++ tail,
            a + xs'.length + p + (z ++ [true]).length, State.Carry, additionRules⟩ =
          some ⟨blanks a ++ digits xs' ++ pluses (p + 1) ++ digits z ++
              (digitChar false :: tail),
            a + xs'.length + p + z.length, State.Carry, additionRules⟩ := by
        rw [show blanks a ++ digits xs' ++ pluses (p + 1) ++ digits (z ++ [true]) ++ tail
            = (blanks a ++ digits xs' ++ pluses (p + 1) ++ digits z) ++ '1' :: tail by
              simp [digits_concat, digitChar],
          show a + xs'.length + p + (z ++ [true]).length
            = (blanks a ++ digits xs' ++ pluses (p + 1) ++ digits z).length by
              simp [blanks, digits, pluses]; omega]
        rw [hstep]
        congr 1
        refine TuringMachine.mk.injEq _ _ _ _ _ _ _ _ ▸ ?_
        exact ⟨by simp [digitChar], by simp [blanks, digits, pluses]; omega, rfl, rfl⟩
      refine ⟨p₂, ys₂' ++ [false], j, ?_, hp₂, by simp; omega, ?_, by simp; omega⟩
      · refine TuringMachine.Reaches.head hstep' ?_
        refine hreach.cast rfl rfl ?_ rfl
        simp [digits_concat, digitChar]
      · rw [boolsVal_concat, boolsVal_concat, hval]
        simp
        omega

/-- Stopping characters for the rightward scans `AddZero` / `AddOne`: a
marked digit or a blank sends the machine left into the corresponding
digit-adding state. -/
theorem addScan_stop (d : Bool) {c : Char} (h : c = 'I' ∨ c = 'O' ∨ c = '_') :
    additionRules (cond d State.AddOne State.AddZero) c =
      some (c, Direction.Left, cond d State.AddDigitOne State.AddDigitZero) := by
  cases d <;> rcases h with rfl | rfl | rfl <;> rfl

/-- Phase A and B of one addition cycle: from anywhere in the leading
blanks, `FindPlus` scans right over blanks and the first operand to the
first `'+'`, turns left into `GetLast`, which consumes the operand's last
digit `d` (rewriting it to `'+'`) and moves right into `AddOne`/`AddZero`
according to `d`. -/
theorem phaseAB (h k b q : Nat) (xs' : List Bool) (d : Bool) (ys ms : List Bool) :
    TuringMachine.Reaches
      ⟨tapeOf (h + k) (xs' ++ [d]) (q + 1) ys ms b, h, State.FindPlus, additionRules⟩
      ⟨tapeOf (h + k) xs' (q + 2) ys ms b, (h + k) + xs'.length + 1,
        cond d State.AddOne State.AddZero, additionRules⟩ := by
  have hrest : pluses (q + 1) ++ digits ys ++ marks ms ++ blanks b ≠ [] := by
    simp [pluses]
  have hskip : ∀ c ∈ blanks k ++ digits (xs' ++ [d]),
      additionRules State.FindPlus c = some (c, Direction.Right, State.FindPlus) := by
    intro c hc
    rcases List.mem_append.mp hc with hc | hc
    · exact findPlus_skip (Or.inl (mem_blanks hc))
    · exact findPlus_skip (Or.inr (mem_digits hc))
  have h1 := TuringMachine.scan_right State.FindPlus additionRules
    (blanks k ++ digits (xs' ++ [d])) (blanks h)
    (pluses (q + 1) ++ digits ys ++ marks ms ++ blanks b) hrest hskip
  have h1' := h1.cast
    (show blanks h ++ (blanks k ++ digits (xs' ++ [d])) ++
        (pluses (q + 1) ++ digits ys ++ marks ms ++ blanks b)
      = tapeOf (h + k) (xs' ++ [d]) (q + 1) ys ms b by
        simp [tapeOf, blanks_add])
    (show (blanks h).length = h by simp [blanks])
    (show blanks h ++ (blanks k ++ digits (xs' ++ [d])) ++
        (pluses (q + 1) ++ digits ys ++ marks ms ++ blanks b)
      = tapeOf (h + k) (xs' ++ [d]) (q + 1) ys ms b by
        simp [tapeOf, blanks_add])
    (show (blanks h).length + (blanks k ++ digits (xs' ++ [d])).length
        = (h + k) + xs'.length + 1 by
      simp [blanks, digits]
      omega)
  have hfront2 : blanks (h + k) ++ digits (xs' ++ [d]) ≠ [] := by
    simp [blanks, digits]
  have h2 := TuringMachine.step_left additionRules State.FindPlus '+' '+' State.GetLast (blanks (h + k) ++ digits (xs' ++ [d])) (pluses q ++ digits ys ++ marks ms ++ blanks b)
    rfl hfront2
  have h2' := (TuringMachine.Reaches.single h2).cast
    (show blanks (h + k) ++ digits (xs' ++ [d]) ++
        '+' :: (pluses q ++ digits ys ++ marks ms ++ blanks b)
      = tapeOf (h + k) (xs' ++ [d]) (q + 1) ys ms b by
        simp [tapeOf, pluses_cons])
    (show (blanks (h + k) ++ digits (xs' ++ [d])).length
        = (h + k) + xs'.length + 1 by
      simp [blanks, digits]
      omega)
    (show blanks (h + k) ++ digits (xs' ++ [d]) ++
        '+' :: (pluses q ++ digits ys ++ marks ms ++ blanks b)
      = tapeOf (h + k) (xs' ++ [d]) (q + 1) ys ms b by
        simp [tapeOf, pluses_cons])
    (show (blanks (h + k) ++ digits (xs' ++ [d])).length - 1
        = (h + k) + xs'.length by
      simp [blanks, digits])
  have hrule3 : additionRules State.GetLast (digitChar d) =
      some ('+', Direction.Right, cond d State.AddOne State.AddZero) := by
    cases d <;> rfl
  have h3 := TuringMachine.step_right additionRules State.GetLast (digitChar d) '+' (cond d State.AddOne State.AddZero) (blanks (h + k) ++ digits xs') (pluses (q + 1) ++ digits ys ++ marks ms ++ blanks b) hrule3 hrest
  have h3' := (TuringMachine.Reaches.single h3).cast
    (show blanks (h + k) ++ digits xs' ++
        digitChar d :: (pluses (q + 1) ++ digits ys ++ marks ms ++ blanks b)
      = tapeOf (h + k) (xs' ++ [d]) (q + 1) ys ms b by
        simp [tapeOf, digits_concat])
    (show (blanks (h + k) ++ digits xs').length = (h + k) + xs'.length by
      simp [blanks, digits])
    (show blanks (h + k) ++ digits xs' ++
        '+' :: (pluses (q + 1) ++ digits ys ++ marks ms ++ blanks b)
      = tapeOf (h + k) xs' (q + 2) ys ms b by
        simp [tapeOf, pluses_cons])
    (show (blanks (h + k) ++ digits xs').length + 1 = (h + k) + xs'.length + 1 by
      simp [blanks, digits])
  exact (h1'.trans h2').trans h3'

theorem marks_cons (x : Bool) (l : List Bool) :
    marks (x :: l) = markChar x :: marks l := rfl

/-- Phase C of one addition cycle: `AddZero` / `AddOne` scans right over the
remaining separators and the unmarked second-operand digits, stops on the
first marked digit or blank (growing the tape by one blank if it runs off
the right end), and turns left into `AddDigitZero` / `AddDigitOne`. -/
theorem phaseC (a b q : Nat) (xs' ys ms : List Bool) (d : Bool) :
    ∃ b₁, TuringMachine.Reaches
      ⟨tapeOf a xs' (q + 2) ys ms b, a + xs'.length + 1,
        cond d State.AddOne State.AddZero, additionRules⟩
      ⟨tapeOf a xs' (q + 2) ys ms b₁, a + xs'.length + q + 1 + ys.length,
        cond d State.AddDigitOne State.AddDigitZero, additionRules⟩ := by
  have hskip : ∀ c ∈ pluses (q + 1) ++ digits ys,
      additionRules (cond d State.AddOne State.AddZero) c =
        some (c, Direction.Right, cond d State.AddOne State.AddZero) := by
    intro c hc
    have hc' : c = '0' ∨ c = '1' ∨ c = '+' := by
      rcases List.mem_append.mp hc with hc | hc
      · exact Or.inr (Or.inr (mem_pluses hc))
      · rcases mem_digits hc with hd | hd
        · exact Or.inl hd
        · exact Or.inr (Or.inl hd)
    cases d
    · exact addZero_skip hc'
    · exact addOne_skip hc'
  have hfront2 : blanks a ++ digits xs' ++ pluses (q + 2) ++ digits ys ≠ [] := by
    simp [blanks, digits, pluses]
  match ms, b with
  | m₀ :: ms₁, b =>
    refine ⟨b, ?_⟩
    have h1 := TuringMachine.scan_right (cond d State.AddOne State.AddZero)
      additionRules (pluses (q + 1) ++ digits ys)
      (blanks a ++ digits xs' ++ ['+']) (marks (m₀ :: ms₁) ++ blanks b)
      (by simp [marks_cons]) hskip
    have h1' := h1.cast
      (show (blanks a ++ digits xs' ++ ['+']) ++ (pluses (q + 1) ++ digits ys) ++
          (marks (m₀ :: ms₁) ++ blanks b) = tapeOf a xs' (q + 2) ys (m₀ :: ms₁) b by
        simp [tapeOf, pluses_cons])
      (show (blanks a ++ digits xs' ++ ['+']).length = a + xs'.length + 1 by
        simp [blanks, digits]
        omega)
      (show (blanks a ++ digits xs' ++ ['+']) ++ (pluses (q + 1) ++ digits ys) ++
          (marks (m₀ :: ms₁) ++ blanks b) = tapeOf a xs' (q + 2) ys (m₀ :: ms₁) b by
        simp [tapeOf, pluses_cons])
      (show (blanks a ++ digits xs' ++ ['+']).length + (pluses (q + 1) ++ digits ys).length
          = a + xs'.length + q + 2 + ys.length by
        simp [blanks, digits, pluses]
        omega)
    have hstop : additionRules (cond d State.AddOne State.AddZero) (markChar m₀) =
        some (markChar m₀, Direction.Left, cond d State.AddDigitOne State.AddDigitZero) :=
      addScan_stop d (by cases m₀ <;> simp [markChar])
    have h2 := TuringMachine.step_left additionRules (cond d State.AddOne State.AddZero) (markChar m₀) (markChar m₀) (cond d State.AddDigitOne State.AddDigitZero) (blanks a ++ digits xs' ++ pluses (q + 2) ++ digits ys) (marks ms₁ ++ blanks b) hstop hfront2
    have h2' := (TuringMachine.Reaches.single h2).cast
      (show blanks a ++ digits xs' ++ pluses (q + 2) ++ digits ys ++
          markChar m₀ :: (marks ms₁ ++ blanks b)
        = tapeOf a xs' (q + 2) ys (m₀ :: ms₁) b by
          simp [tapeOf, marks_cons])
      (show (blanks a ++ digits xs' ++ pluses (q + 2) ++ digits ys).length
          = a + xs'.length + q + 2 + ys.length by
        simp [blanks, digits, pluses]
        omega)
      (show blanks a ++ digits xs' ++ pluses (q + 2) ++ digits ys ++
          markChar m₀ :: (marks ms₁ ++ blanks b)
        = tapeOf a xs' (q + 2) ys (m₀ :: ms₁) b by
          simp [tapeOf, marks_cons])
      (show (blanks a ++ digits xs' ++ pluses (q + 2) ++ digits ys).length - 1
          = a + xs'.length + q + 1 + ys.length by
        simp [blanks, digits, pluses]
        omega)
    exact h1'.trans h2'
  | [], b + 1 =>
    refine ⟨b + 1, ?_⟩
    have h1 := TuringMachine.scan_right (cond d State.AddOne State.AddZero)
      additionRules (pluses (q + 1) ++ digits ys)
      (blanks a ++ digits xs' ++ ['+']) (blanks (b + 1))
      (by simp [blanks]) hskip
    have h1' := h1.cast
      (show (blanks a ++ digits xs' ++ ['+']) ++ (pluses (q + 1) ++ digits ys) ++
          blanks (b + 1) = tapeOf a xs' (q + 2) ys [] (b + 1) by
        simp [tapeOf, pluses_cons, marks])
      (show (blanks a ++ digits xs' ++ ['+']).length = a + xs'.length + 1 by
        simp [blanks, digits]
        omega)
      (show (blanks a ++ digits xs' ++ ['+']) ++ (pluses (q + 1) ++ digits ys) ++
          blanks (b + 1) = tapeOf a xs' (q + 2) ys [] (b + 1) by
        simp [tapeOf, pluses_cons, marks])
      (show (blanks a ++ digits xs' ++ ['+']).length + (pluses (q + 1) ++ digits ys).length
          = a + xs'.length + q + 2 + ys.length by
        simp [blanks, digits, pluses]
        omega)
    have hstop : additionRules (cond d State.AddOne State.AddZero) '_' =
        some ('_', Direction.Left, cond d State.AddDigitOne State.AddDigitZero) :=
      addScan_stop d (by simp)
    have h2 := TuringMachine.step_left additionRules (cond d State.AddOne State.AddZero) '_' '_' (cond d State.AddDigitOne State.AddDigitZero) (blanks a ++ digits xs' ++ pluses (q + 2) ++ digits ys) (blanks b) hstop hfront2
    have h2' := (TuringMachine.Reaches.single h2).cast
      (show blanks a ++ digits xs' ++ pluses (q + 2) ++ digits ys ++
          '_' :: blanks b = tapeOf a xs' (q + 2) ys [] (b + 1) by
        simp [tapeOf, marks, blanks, List.replicate_succ])
      (show (blanks a ++ digits xs' ++ pluses (q + 2) ++ digits ys).length
          = a + xs'.length + q + 2 + ys.length by
        simp [blanks, digits, pluses]
        omega)
      (show blanks a ++ digits xs' ++ pluses (q + 2) ++ digits ys ++
          '_' :: blanks b = tapeOf a xs' (q + 2) ys [] (b + 1) by
        simp [tapeOf, marks, blanks, List.replicate_succ])
      (show (blanks a ++ digits xs' ++ pluses (q + 2) ++ digits ys).length - 1
          = a + xs'.length + q + 1 + ys.length by
        simp [blanks, digits, pluses]
        omega)
    exact h1'.trans h2'
  | [], 0 =>
    refine ⟨1, ?_⟩
    have h1 := TuringMachine.scan_right_push (cond d State.AddOne State.AddZero)
      additionRules (pluses (q + 1) ++ digits ys)
      (blanks a ++ digits xs' ++ ['+'])
      (by simp [pluses]) hskip
    have h1' := h1.cast
      (show (blanks a ++ digits xs' ++ ['+']) ++ (pluses (q + 1) ++ digits ys)
          = tapeOf a xs' (q + 2) ys [] 0 by
        simp [tapeOf, pluses_cons, marks, blanks])
      (show (blanks a ++ digits xs' ++ ['+']).length = a + xs'.length + 1 by
        simp [blanks, digits]
        omega)
      (show (blanks a ++ digits xs' ++ ['+']) ++ (pluses (q + 1) ++ digits ys) ++ ['_']
          = tapeOf a xs' (q + 2) ys [] 1 by
        simp [tapeOf, pluses_cons, marks, blanks])
      (show (blanks a ++ digits xs' ++ ['+']).length + (pluses (q + 1) ++ digits ys).length
          = a + xs'.length + q + 2 + ys.length by
        simp [blanks, digits, pluses]
        omega)
    have hstop : additionRules (cond d State.AddOne State.AddZero) '_' =
        some ('_', Direction.Left, cond d State.AddDigitOne State.AddDigitZero) :=
      addScan_stop d (by simp)
    have h2 := TuringMachine.step_left additionRules (cond d State.AddOne State.AddZero) '_' '_' (cond d State.AddDigitOne State.AddDigitZero) (blanks a ++ digits xs' ++ pluses (q + 2) ++ digits ys) (([] : List Char)) hstop hfront2
    have h2' := (TuringMachine.Reaches.single h2).cast
      (show blanks a ++ digits xs' ++ pluses (q + 2) ++ digits ys ++
          '_' :: ([] : List Char) = tapeOf a xs' (q + 2) ys [] 1 by
        simp [tapeOf, marks, blanks])
      (show (blanks a ++ digits xs' ++ pluses (q + 2) ++ digits ys).length
          = a + xs'.length + q + 2 + ys.length by
        simp [blanks, digits, pluses]
        omega)
      (show blanks a ++ digits xs' ++ pluses (q + 2) ++ digits ys ++
          '_' :: ([] : List Char) = tapeOf a xs' (q + 2) ys [] 1 by
        simp [tapeOf, marks, blanks])
      (show (blanks a ++ digits xs' ++ pluses (q + 2) ++ digits ys).length - 1
          = a + xs'.length + q + 1 + ys.length by
        simp [blanks, digits, pluses]
        omega)
    exact h1'.trans h2'

/-- Phase D of one addition cycle: `AddDigitZero` / `AddDigitOne` marks the
rightmost unmarked digit of the second operand (or the rightmost separator
when none is left), adding the remembered digit `d` with ripple carry, and
ends in `BackToStart` one cell to the left of the written mark.  The marked
region gains exactly one digit `bit`, and the unmarked region `ys` together
with `bit` is the old value plus `d`. -/
theorem phaseD (a b₁ q : Nat) (xs' ys ms : List Bool) (d : Bool) :
    ∃ p₂ ys₂ bit j,
      TuringMachine.Reaches
        ⟨tapeOf a xs' (q + 2) ys ms b₁, a + xs'.length + q + 1 + ys.length,
          cond d State.AddDigitOne State.AddDigitZero, additionRules⟩
        ⟨tapeOf a xs' p₂ ys₂ (bit :: ms) b₁, a + j, State.BackToStart,
          additionRules⟩ ∧
      1 ≤ p₂ ∧ 2 * boolsVal ys₂ + bit.toNat = boolsVal ys + d.toNat ∧
      j < xs'.length + p₂ + ys₂.length := by
  rcases List.eq_nil_or_concat ys with rfl | ⟨ys₀, y, rfl⟩
  · refine ⟨q + 1, [], d, xs'.length + q, ?_, by omega, by simp [boolsVal], by omega⟩
    have hfront : blanks a ++ digits xs' ++ pluses (q + 1) ≠ [] := by
      simp [blanks, digits, pluses]
    have hrule : additionRules (cond d State.AddDigitOne State.AddDigitZero) '+' =
        some (markChar d, Direction.Left, State.BackToStart) := by
      cases d <;> rfl
    have h1 := TuringMachine.step_left additionRules
      (cond d State.AddDigitOne State.AddDigitZero) '+' (markChar d)
      State.BackToStart (blanks a ++ digits xs' ++ pluses (q + 1))
      (marks ms ++ blanks b₁) hrule hfront
    refine (TuringMachine.Reaches.single h1).cast ?_ ?_ ?_ ?_
    · show blanks a ++ digits xs' ++ pluses (q + 1) ++ '+' :: (marks ms ++ blanks b₁)
        = tapeOf a xs' (q + 2) [] ms b₁
      simp [tapeOf, pluses_succ, digits]
    · show (blanks a ++ digits xs' ++ pluses (q + 1)).length
        = a + xs'.length + q + 1 + ([] : List Bool).length
      simp [blanks, digits, pluses]
      omega
    · show blanks a ++ digits xs' ++ pluses (q + 1) ++
          markChar d :: (marks ms ++ blanks b₁)
        = tapeOf a xs' (q + 1) [] (d :: ms) b₁
      simp [tapeOf, digits, marks_cons]
    · show (blanks a ++ digits xs' ++ pluses (q + 1)).length - 1
        = a + (xs'.length + q)
      simp [blanks, digits, pluses]
      omega
  · simp only [List.concat_eq_append]
    have hfront : blanks a ++ digits xs' ++ pluses (q + 2) ++ digits ys₀ ≠ [] := by
      simp [blanks, digits, pluses]
    cases d with
    | false =>
      refine ⟨q + 2, ys₀, y, xs'.length + q + 1 + ys₀.length, ?_, by omega, ?_,
        by omega⟩
      · have hrule : additionRules State.AddDigitZero (digitChar y) =
            some (markChar y, Direction.Left, State.BackToStart) := by
          cases y <;> rfl
        have h1 := TuringMachine.step_left additionRules State.AddDigitZero
          (digitChar y) (markChar y) State.BackToStart
          (blanks a ++ digits xs' ++ pluses (q + 2) ++ digits ys₀)
          (marks ms ++ blanks b₁) hrule hfront
        refine (TuringMachine.Reaches.single h1).cast ?_ ?_ ?_ ?_
        · show blanks a ++ digits xs' ++ pluses (q + 2) ++ digits ys₀ ++
              digitChar y :: (marks ms ++ blanks b₁)
            = tapeOf a xs' (q + 2) (ys₀ ++ [y]) ms b₁
          simp [tapeOf, digits_concat]
        · show (blanks a ++ digits xs' ++ pluses (q + 2) ++ digits ys₀).length
            = a + xs'.length + q + 1 + (ys₀ ++ [y]).length
          simp [blanks, digits, pluses]
          omega
        · show blanks a ++ digits xs' ++ pluses (q + 2) ++ digits ys₀ ++
              markChar y :: (marks ms ++ blanks b₁)
            = tapeOf a xs' (q + 2) ys₀ (y :: ms) b₁
          simp [tapeOf, marks_cons]
        · show (blanks a ++ digits xs' ++ pluses (q + 2) ++ digits ys₀).length - 1
            = a + (xs'.length + q + 1 + ys₀.length)
          simp [blanks, digits, pluses]
          omega
      · rw [boolsVal_concat]
        simp
    | true =>
      cases y with
      | false =>
        refine ⟨q + 2, ys₀, true, xs'.length + q + 1 + ys₀.length, ?_, by omega,
          ?_, by omega⟩
        · have h1 := TuringMachine.step_left additionRules State.AddDigitOne
            '0' 'I' State.BackToStart
            (blanks a ++ digits xs' ++ pluses (q + 2) ++ digits ys₀)
            (marks ms ++ blanks b₁) rfl hfront
          refine (TuringMachine.Reaches.single h1).cast ?_ ?_ ?_ ?_
          · show blanks a ++ digits xs' ++ pluses (q + 2) ++ digits ys₀ ++
                '0' :: (marks ms ++ blanks b₁)
              = tapeOf a xs' (q + 2) (ys₀ ++ [false]) ms b₁
            simp [tapeOf, digits_concat, digitChar]
          · show (blanks a ++ digits xs' ++ pluses (q + 2) ++ digits ys₀).length
              = a + xs'.length + q + 1 + (ys₀ ++ [false]).length
            simp [blanks, digits, pluses]
            omega
          · show blanks a ++ digits xs' ++ pluses (q + 2) ++ digits ys₀ ++
                'I' :: (marks ms ++ blanks b₁)
              = tapeOf a xs' (q + 2) ys₀ (true :: ms) b₁
            simp [tapeOf, marks_cons, markChar]
          · show (blanks a ++ digits xs' ++ pluses (q + 2) ++ digits ys₀).length - 1
              = a + (xs'.length + q + 1 + ys₀.length)
            simp [blanks, digits, pluses]
            omega
        · rw [boolsVal_concat]
          simp
      | true =>
        obtain ⟨p₂, ys₂, j, hreach, hp₂, hlen, hval, hj⟩ :=
          carry_run a xs' ys₀ (q + 1) (marks (false :: ms) ++ blanks b₁)
            (by omega)
        refine ⟨p₂, ys₂, false, j, ?_, hp₂, ?_, by omega⟩
        · have h1 := TuringMachine.step_left additionRules State.AddDigitOne
            '1' 'O' State.Carry
            (blanks a ++ digits xs' ++ pluses (q + 2) ++ digits ys₀)
            (marks ms ++ blanks b₁) rfl hfront
          have h1' := (TuringMachine.Reaches.single h1).cast
            (show blanks a ++ digits xs' ++ pluses (q + 2) ++ digits ys₀ ++
                '1' :: (marks ms ++ blanks b₁)
              = tapeOf a xs' (q + 2) (ys₀ ++ [true]) ms b₁ by
                simp [tapeOf, digits_concat, digitChar])
            (show (blanks a ++ digits xs' ++ pluses (q + 2) ++ digits ys₀).length
                = a + xs'.length + q + 1 + (ys₀ ++ [true]).length by
              simp [blanks, digits, pluses]
              omega)
            (show blanks a ++ digits xs' ++ pluses (q + 2) ++ digits ys₀ ++
                'O' :: (marks ms ++ blanks b₁)
              = blanks a ++ digits xs' ++ pluses ((q + 1) + 1) ++ digits ys₀ ++
                  (marks (false :: ms) ++ blanks b₁) by
                simp [marks_cons, markChar])
            (show (blanks a ++ digits xs' ++ pluses (q + 2) ++ digits ys₀).length - 1
                = a + xs'.length + (q + 1) + ys₀.length by
              simp [blanks, digits, pluses]
              omega)
          have h2' := hreach.cast rfl rfl
            (show blanks a ++ digits xs' ++ pluses p₂ ++ digits ys₂ ++
                (marks (false :: ms) ++ blanks b₁)
              = tapeOf a xs' p₂ ys₂ (false :: ms) b₁ by
                simp [tapeOf])
            rfl
          exact h1'.trans h2'
        · rw [boolsVal_concat, hval]
          simp
          omega

/-- The `BackToStart` rewind: from anywhere inside a block of digit and
separator cells preceded by `a` blanks, the machine scans left to the last
leading blank (inserting a fresh blank at the left end when `a = 0`) and
turns right into `FindPlus`, ending on the first cell after the leading
blanks. -/
theorem backToStart_run (body rest : List Char) (a j : Nat)
    (hmem : ∀ c ∈ body, c = '0' ∨ c = '1' ∨ c = '+')
    (hj : j < body.length) :
    TuringMachine.Reaches
      ⟨blanks a ++ body ++ rest, a + j, State.BackToStart, additionRules⟩
      ⟨blanks (max a 1) ++ body ++ rest, max a 1, State.FindPlus,
        additionRules⟩ := by
  have hsplit : body.take (j + 1) ++ body.drop (j + 1) = body :=
    List.take_append_drop _ _
  have htklen : (body.take (j + 1)).length = j + 1 := by
    rw [List.length_take]
    omega
  rcases Nat.eq_zero_or_pos a with rfl | ha
  · obtain ⟨c₀, body', rfl⟩ : ∃ c₀ body', body = c₀ :: body' := by
      cases body with
      | nil => simp at hj
      | cons c₀ body' => exact ⟨c₀, body', rfl⟩
    have hj' : j ≤ body'.length := by
      have := hj
      simp at this
      omega
    have h1 := TuringMachine.scan_left State.BackToStart additionRules
      (body'.take j) [c₀] (body'.drop j ++ rest) (by simp)
      (fun c hc => backToStart_skip
        (hmem c (List.mem_cons_of_mem _ (List.take_subset _ _ hc))))
    have h1' := h1.cast
      (show [c₀] ++ body'.take j ++ (body'.drop j ++ rest)
          = blanks 0 ++ (c₀ :: body') ++ rest by
        simp only [blanks, List.replicate, List.nil_append, List.singleton_append,
          List.cons_append, List.append_assoc]
        rw [← List.append_assoc (body'.take j) (body'.drop j) rest,
          List.take_append_drop])
      (show ([c₀] : List Char).length + (body'.take j).length - 1 = 0 + j by
        rw [List.length_take]
        simp
        omega)
      (show [c₀] ++ body'.take j ++ (body'.drop j ++ rest)
          = blanks 0 ++ (c₀ :: body') ++ rest by
        simp only [blanks, List.replicate, List.nil_append, List.singleton_append,
          List.cons_append, List.append_assoc]
        rw [← List.append_assoc (body'.take j) (body'.drop j) rest,
          List.take_append_drop])
      (show ([c₀] : List Char).length - 1 = 0 by simp)
    have h2 := TuringMachine.step_left_zero additionRules State.BackToStart
      c₀ c₀ State.BackToStart (body' ++ rest)
      (backToStart_skip (hmem c₀ (List.mem_cons_self c₀ body')))
    have h2' := (TuringMachine.Reaches.single h2).cast
      (show c₀ :: (body' ++ rest) = blanks 0 ++ (c₀ :: body') ++ rest by
        simp [blanks])
      rfl rfl rfl
    have h3 := TuringMachine.step_right additionRules State.BackToStart
      '_' '_' State.FindPlus ([] : List Char) (c₀ :: (body' ++ rest))
      rfl (by simp)
    have h3' := (TuringMachine.Reaches.single h3).cast
      (show ([] : List Char) ++ '_' :: (c₀ :: (body' ++ rest))
          = '_' :: c₀ :: (body' ++ rest) by simp)
      (show ([] : List Char).length = 0 by simp)
      (show ([] : List Char) ++ '_' :: (c₀ :: (body' ++ rest))
          = blanks (max 0 1) ++ (c₀ :: body') ++ rest by simp [blanks])
      (show ([] : List Char).length + 1 = max 0 1 by simp)
    exact (h1'.trans h2').trans h3'
  · obtain ⟨a', rfl⟩ : ∃ a', a = a' + 1 := ⟨a - 1, by omega⟩
    have hmax : max (a' + 1) 1 = a' + 1 := by omega
    rw [hmax]
    have h1 := TuringMachine.scan_left State.BackToStart additionRules
      (body.take (j + 1)) (blanks (a' + 1)) (body.drop (j + 1) ++ rest)
      (blanks_ne_nil (by omega))
      (fun c hc => backToStart_skip (hmem c (List.take_subset _ _ hc)))
    have h1' := h1.cast
      (show blanks (a' + 1) ++ body.take (j + 1) ++ (body.drop (j + 1) ++ rest)
          = blanks (a' + 1) ++ body ++ rest by
        simp only [List.append_assoc]
        rw [← List.append_assoc (body.take (j + 1)) (body.drop (j + 1)) rest,
          List.take_append_drop])
      (show (blanks (a' + 1)).length + (body.take (j + 1)).length - 1
          = a' + 1 + j by
        rw [htklen]
        simp [blanks])
      (show blanks (a' + 1) ++ body.take (j + 1) ++ (body.drop (j + 1) ++ rest)
          = blanks (a' + 1) ++ body ++ rest by
        simp only [List.append_assoc]
        rw [← List.append_assoc (body.take (j + 1)) (body.drop (j + 1)) rest,
          List.take_append_drop])
      (show (blanks (a' + 1)).length - 1 = a' by simp [blanks])
    have h2 := TuringMachine.step_right additionRules State.BackToStart
      '_' '_' State.FindPlus (blanks a') (body ++ rest)
      rfl
      (by
        intro hc
        rcases List.append_eq_nil.mp hc with ⟨hb, _⟩
        rw [hb] at hj
        simp at hj)
    have h2' := (TuringMachine.Reaches.single h2).cast
      (show blanks a' ++ '_' :: (body ++ rest) = blanks (a' + 1) ++ body ++ rest by
        simp [blanks, List.replicate_succ'])
      (show (blanks a').length = a' by simp [blanks])
      (show blanks a' ++ '_' :: (body ++ rest) = blanks (a' + 1) ++ body ++ rest by
        simp [blanks, List.replicate_succ'])
      (show (blanks a').length + 1 = a' + 1 by simp [blanks])
    exact h1'.trans h2'

/-- Phase E of one addition cycle: `BackToStart` returns to the start of the
tape and hands control back to `FindPlus`, normalising the number of leading
blanks to at least one. -/
theorem phaseE (a : Nat) (xs' : List Bool) (p₂ : Nat) (ys₂ ms₂ : List Bool)
    (b₁ j : Nat) (hj : j < xs'.length + p₂ + ys₂.length) :
    TuringMachine.Reaches
      ⟨tapeOf a xs' p₂ ys₂ ms₂ b₁, a + j, State.BackToStart, additionRules⟩
      ⟨tapeOf (max a 1) xs' p₂ ys₂ ms₂ b₁, max a 1, State.FindPlus,
        additionRules⟩ := by
  have hmem : ∀ c ∈ digits xs' ++ pluses p₂ ++ digits ys₂,
      c = '0' ∨ c = '1' ∨ c = '+' := by
    intro c hc
    rcases List.mem_append.mp hc with hc | hc
    · rcases List.mem_append.mp hc with hc | hc
      · rcases mem_digits hc with hd | hd
        · exact Or.inl hd
        · exact Or.inr (Or.inl hd)
      · exact Or.inr (Or.inr (mem_pluses hc))
    · rcases mem_digits hc with hd | hd
      · exact Or.inl hd
      · exact Or.inr (Or.inl hd)
  have h1 := backToStart_run (digits xs' ++ pluses p₂ ++ digits ys₂)
    (marks ms₂ ++ blanks b₁) a j hmem
    (by simp [digits, pluses]; omega)
  exact h1.cast
    (show blanks a ++ (digits xs' ++ pluses p₂ ++ digits ys₂) ++
        (marks ms₂ ++ blanks b₁) = tapeOf a xs' p₂ ys₂ ms₂ b₁ by
      simp [tapeOf])
    rfl
    (show blanks (max a 1) ++ (digits xs' ++ pluses p₂ ++ digits ys₂) ++
        (marks ms₂ ++ blanks b₁) = tapeOf (max a 1) xs' p₂ ys₂ ms₂ b₁ by
      simp [tapeOf])
    rfl

/-- One full addition cycle: starting in `FindPlus` anywhere in the leading
blanks, the machine consumes the last digit `d` of the first operand and
deposits it (with carry) at the rightmost unmarked position of the second
operand, then rewinds.  The marked region gains the bit `bit` with
`2 * ys' + bit = ys + d` as binary values. -/
theorem cycle (a p b h : Nat) (xs' : List Bool) (d : Bool) (ys ms : List Bool)
    (hp : 1 ≤ p) (hh : h ≤ a) :
    ∃ p' ys' bit b',
      TuringMachine.Reaches
        ⟨tapeOf a (xs' ++ [d]) p ys ms b, h, State.FindPlus, additionRules⟩
        ⟨tapeOf (max a 1) xs' p' ys' (bit :: ms) b', max a 1, State.FindPlus,
          additionRules⟩ ∧
      1 ≤ p' ∧ 2 * boolsVal ys' + bit.toNat = boolsVal ys + d.toNat := by
  obtain ⟨q, rfl⟩ : ∃ q, p = q + 1 := ⟨p - 1, by omega⟩
  obtain ⟨k, rfl⟩ : ∃ k, a = h + k := ⟨a - h, by omega⟩
  have hAB := phaseAB h k b q xs' d ys ms
  obtain ⟨b₁, hC⟩ := phaseC (h + k) b q xs' ys ms d
  obtain ⟨p₂, ys₂, bit, j, hD, hp₂, hval, hj⟩ := phaseD (h + k) b₁ q xs' ys ms d
  have hE := phaseE (h + k) xs' p₂ ys₂ (bit :: ms) b₁ j hj
  exact ⟨p₂, ys₂, bit, b₁, ((hAB.trans hC).trans hD).trans hE, hp₂, hval⟩

/-- The halting phase: when the first operand is exhausted, `FindPlus` scans
the leading blanks up to the separator run, turns left into `GetLast`, which
reads a blank; no rule matches a blank in `GetLast`, so the machine halts
with the tape unchanged. -/
theorem final_halt (a p b h : Nat) (ys ms : List Bool)
    (hp : 1 ≤ p) (ha : 1 ≤ a) (hh : h ≤ a) :
    TuringMachine.Reaches
      ⟨tapeOf a [] p ys ms b, h, State.FindPlus, additionRules⟩
      ⟨tapeOf a [] p ys ms b, a - 1, State.Halt, additionRules⟩ := by
  obtain ⟨q, rfl⟩ : ∃ q, p = q + 1 := ⟨p - 1, by omega⟩
  obtain ⟨k, rfl⟩ : ∃ k, a = h + k := ⟨a - h, by omega⟩
  obtain ⟨A, hA⟩ : ∃ A, h + k = A + 1 := ⟨h + k - 1, by omega⟩
  have h1 := TuringMachine.scan_right State.FindPlus additionRules
    (blanks k) (blanks h) (pluses (q + 1) ++ digits ys ++ marks ms ++ blanks b)
    (by simp [pluses])
    (fun c hc => findPlus_skip (Or.inl (mem_blanks hc)))
  have h1' := h1.cast
    (show blanks h ++ blanks k ++ (pluses (q + 1) ++ digits ys ++ marks ms ++ blanks b)
        = tapeOf (h + k) [] (q + 1) ys ms b by
      simp [tapeOf, blanks_add, digits])
    (show (blanks h).length = h by simp [blanks])
    (show blanks h ++ blanks k ++ (pluses (q + 1) ++ digits ys ++ marks ms ++ blanks b)
        = tapeOf (h + k) [] (q + 1) ys ms b by
      simp [tapeOf, blanks_add, digits])
    (show (blanks h).length + (blanks k).length = h + k by simp [blanks])
  have h2 := TuringMachine.step_left additionRules State.FindPlus '+' '+' State.GetLast (blanks (h + k)) (pluses q ++ digits ys ++ marks ms ++ blanks b)
    rfl (blanks_ne_nil ha)
  have h2' := (TuringMachine.Reaches.single h2).cast
    (show blanks (h + k) ++ '+' :: (pluses q ++ digits ys ++ marks ms ++ blanks b)
        = tapeOf (h + k) [] (q + 1) ys ms b by
      simp [tapeOf, digits, pluses_cons])
    (show (blanks (h + k)).length = h + k by simp [blanks])
    (show blanks (h + k) ++ '+' :: (pluses q ++ digits ys ++ marks ms ++ blanks b)
        = tapeOf (h + k) [] (q + 1) ys ms b by
      simp [tapeOf, digits, pluses_cons])
    (show (blanks (h + k)).length - 1 = A by simp [blanks]; omega)
  have h3 := TuringMachine.step_no_rule additionRules State.GetLast '_' (blanks A) ('+' :: (pluses q ++ digits ys ++ marks ms ++ blanks b)) rfl
  have h3' := (TuringMachine.Reaches.single h3).cast
    (show blanks A ++ '_' :: ('+' :: (pluses q ++ digits ys ++ marks ms ++ blanks b))
        = tapeOf (h + k) [] (q + 1) ys ms b by
      rw [hA]
      simp [tapeOf, digits, pluses_cons, blanks_succ])
    (show (blanks A).length = A by simp [blanks])
    (show blanks A ++ '_' :: ('+' :: (pluses q ++ digits ys ++ marks ms ++ blanks b))
        = tapeOf (h + k) [] (q + 1) ys ms b by
      rw [hA]
      simp [tapeOf, digits, pluses_cons, blanks_succ])
    (show (blanks A).length = h + k - 1 by simp [blanks]; omega)
  exact (h1'.trans h2').trans h3'

/-- The main induction: from any well-formed configuration the machine runs
to a halted configuration whose unmarked and marked second-operand regions
together hold the value `xs + ys` shifted into the already-marked bits. -/
theorem runs_to_halt :
    ∀ (xs : List Bool) (a p b h : Nat) (ys ms : List Bool),
      1 ≤ p → h ≤ a → (1 ≤ a ∨ xs ≠ []) →
      ∃ a' p' b' ys' ms',
        TuringMachine.Reaches
          ⟨tapeOf a xs p ys ms b, h, State.FindPlus, additionRules⟩
          ⟨tapeOf a' [] p' ys' ms' b', a' - 1, State.Halt, additionRules⟩ ∧
        1 ≤ a' ∧
        boolsVal ys' * 2 ^ ms'.length + boolsVal ms'
          = (boolsVal xs + boolsVal ys) * 2 ^ ms.length + boolsVal ms := by
  intro xs
  induction xs using List.reverseRecOn with
  | nil =>
    intro a p b h ys ms hp hh hcase
    have ha : 1 ≤ a := hcase.resolve_right (by simp)
    exact ⟨a, p, b, ys, ms, final_halt a p b h ys ms hp ha hh, ha, by
      simp [boolsVal]⟩
  | append_singleton xs₀ d ih =>
    intro a p b h ys ms hp hh _
    obtain ⟨p', ys', bit, b', hcyc, hp', hval⟩ := cycle a p b h xs₀ d ys ms hp hh
    obtain ⟨a', p'', b'', ys'', ms'', hrun, ha', hval2⟩ :=
      ih (max a 1) p' b' (max a 1) ys' (bit :: ms) hp' (le_refl _)
        (Or.inl (by omega))
    refine ⟨a', p'', b'', ys'', ms'', hcyc.trans hrun, ha', ?_⟩
    rw [hval2]
    have hbit : boolsVal (bit :: ms) = bit.toNat * 2 ^ ms.length + boolsVal ms := by
      have hb := boolsVal_append [bit] ms
      have hone : boolsVal [bit] = bit.toNat := by
        cases bit <;> simp [boolsVal]
      rw [hone] at hb
      simpa using hb
    rw [hbit, boolsVal_concat]
    simp only [List.length_cons, pow_succ]
    zify at hval ⊢
    linear_combination ((2 : ℤ) ^ ms.length) * hval

/-- A step never changes the rule table. -/
theorem step_rules {m m' : TuringMachine} (h : m.step = some m') :
    m'.rules = m.rules := by
  unfold TuringMachine.step at h
  cases hr : m.tape[m.head]? with
  | none =>
    rw [hr] at h
    exact absurd h (by simp)
  | some sym =>
    rw [hr] at h
    dsimp only at h
    cases hrule : m.rules m.state sym with
    | none =>
      rw [hrule] at h
      obtain rfl : { m with state := State.Halt } = m' := by
        simpa using h
      rfl
    | some v =>
      obtain ⟨w, d, s'⟩ := v
      rw [hrule] at h
      cases d with
      | Left =>
        by_cases h0 : 0 < m.head <;> simp [h0] at h <;> rw [← h]
      | Right =>
        by_cases h0 : m.tape.length ≤ m.head + 1 <;>
          simp [h0] at h <;> rw [← h]

/-- A machine already in `Halt` whose rule table has no `Halt` entries stays
exactly where it is under iteration. -/
theorem stepsN_from_halt :
    ∀ (n : Nat) (m mf : TuringMachine),
      (∀ c, m.rules State.Halt c = none) → m.state = State.Halt →
      TuringMachine.stepsN n m = some mf → mf = m := by
  intro n
  induction n with
  | zero =>
    intro m mf _ _ h
    simpa [TuringMachine.stepsN] using h.symm
  | succ n ih =>
    intro m mf hno hstate h
    rw [TuringMachine.stepsN] at h
    cases hr : m.tape[m.head]? with
    | none =>
      have : m.step = none := by
        unfold TuringMachine.step
        rw [hr]
      rw [this] at h
      simp at h
    | some sym =>
      have hstep : m.step = some m := by
        obtain ⟨t, hd, s, R⟩ := m
        simp only at hstate hno hr
        subst hstate
        unfold TuringMachine.step
        rw [hr]
        dsimp only
        rw [hno sym]
      rw [hstep] at h
      exact ih m mf hno hstate (by simpa using h)

/-- Any reachability fact ending in `Halt`, over a rule table with no `Halt`
entries, is realised by the run loop with enough fuel: `run` returns that
same halted machine. -/
theorem run_of_reaches :
    ∀ (n : Nat) (m mf : TuringMachine),
      (∀ c, m.rules State.Halt c = none) →
      TuringMachine.stepsN n m = some mf → mf.state = State.Halt →
      ∃ fuel tr, TuringMachine.run fuel m = some (tr, mf) := by
  intro n
  induction n with
  | zero =>
    intro m mf _ h hh
    obtain rfl : m = mf := by simpa [TuringMachine.stepsN] using h
    refine ⟨1, [m.cfg], ?_⟩
    simp [TuringMachine.run, hh]
  | succ n ih =>
    intro m mf hno h hh
    by_cases hs : m.state = State.Halt
    · refine ⟨1, [m.cfg], ?_⟩
      have heq := stepsN_from_halt (n + 1) m mf hno hs h
      rw [heq]
      simp [TuringMachine.run, hs]
    · rw [TuringMachine.stepsN] at h
      cases hstep : m.step with
      | none =>
        rw [hstep] at h
        simp at h
      | some m₁ =>
        rw [hstep] at h
        have hno₁ : ∀ c, m₁.rules State.Halt c = none := by
          rw [step_rules hstep]
          exact hno
        obtain ⟨fuel, tr, hrun⟩ := ih m₁ mf hno₁ (by simpa using h) hh
        refine ⟨fuel + 1, m.cfg :: tr, ?_⟩
        rw [TuringMachine.run, if_neg hs, hstep]
        simp [hrun]

/-- The example machine halts after 300 steps (it is already in `Halt` well
before that, and a step in `Halt` does not change the configuration) on
`exampleFinalTape`, head 0. -/
theorem exampleRun_eq :
    TuringMachine.stepsN 300 (TuringMachine.new exampleTape additionRules) =
      some ⟨exampleFinalTape, 0, State.Halt, additionRules⟩ := by
  set_option maxRecDepth 80000 in rfl

/-- The initial tape shape is the general tape shape with one separator and
no marked digits. -/
theorem initTape_eq (a b : Nat) (xs ys : List Bool) :
    initTape a xs ys b = tapeOf a xs 1 ys [] b := by
  simp [initTape, tapeOf, blanks, pluses, digits, marks, List.replicate]

/-! ## Claim theorems -/

/-- C1: for every initial tape of blanks, the digits of the first operand,
one `'+'`, the digits of the second operand, and blanks (no marked symbols),
the run loop started in `FindPlus` with head 0 halts, and the final tape's
second-operand region — unmarked digits followed by marked digits, read left
to right with `'O'` as `0` and `'I'` as `1` — is a binary representation of
the sum of the two operands. -/
theorem addition_correct (a b : Nat) (xs ys : List Bool)
    (hxs : xs ≠ []) (hys : ys ≠ []) :
    ∃ fuel tr mf,
      TuringMachine.run fuel
        (TuringMachine.new (initTape a xs ys b) additionRules) = some (tr, mf) ∧
      mf.state = State.Halt ∧
      ∃ a' p' b' plain marked,
        mf.tape = List.replicate a' '_' ++ List.replicate p' '+' ++
          plain.map digitChar ++ marked.map markChar ++ List.replicate b' '_' ∧
        boolsVal (plain ++ marked) = boolsVal xs + boolsVal ys := by
  obtain ⟨a', p', b', ys', ms', hreach, ha', hval⟩ :=
    runs_to_halt xs a 1 b 0 ys [] (le_refl 1) (Nat.zero_le a) (Or.inr hxs)
  obtain ⟨n, hsteps⟩ := hreach
  obtain ⟨fuel, tr, hrun⟩ := run_of_reaches n
    ⟨tapeOf a xs 1 ys [] b, 0, State.FindPlus, additionRules⟩
    ⟨tapeOf a' [] p' ys' ms' b', a' - 1, State.Halt, additionRules⟩
    (fun _ => rfl) hsteps rfl
  refine ⟨fuel, tr,
    ⟨tapeOf a' [] p' ys' ms' b', a' - 1, State.Halt, additionRules⟩, ?_, rfl,
    a', p', b', ys', ms', ?_, ?_⟩
  · rw [TuringMachine.new, initTape_eq]
    exact hrun
  · show tapeOf a' [] p' ys' ms' b' = _
    simp [tapeOf, blanks, pluses, digits, marks]
  · rw [boolsVal_append, hval]
    simp [boolsVal]

/-- Witness for C1: the tape `_ 1 + 1 _` (1 + 1). -/
theorem addition_correct_witness :
    ∃ fuel tr mf,
      TuringMachine.run fuel
        (TuringMachine.new (initTape 1 [true] [true] 1) additionRules)
        = some (tr, mf) ∧
      mf.state = State.Halt ∧
      ∃ a' p' b' plain marked,
        mf.tape = List.replicate a' '_' ++ List.replicate p' '+' ++
          plain.map digitChar ++ marked.map markChar ++ List.replicate b' '_' ∧
        boolsVal (plain ++ marked) = boolsVal [true] + boolsVal [true] :=
  addition_correct 1 1 [true] [true] (by simp) (by simp)

/-- C2: for every tape of the form blanks, non-empty digits, one `'+'`,
non-empty digits, blanks, the run loop started in `FindPlus` with head 0
reaches the `Halt` state after finitely many steps. -/
theorem addition_terminates (a b : Nat) (xs ys : List Bool)
    (hxs : xs ≠ []) (hys : ys ≠ []) :
    ∃ fuel tr mf,
      TuringMachine.run fuel
        (TuringMachine.new (initTape a xs ys b) additionRules) = some (tr, mf) ∧
      mf.state = State.Halt := by
  obtain ⟨a', p', b', ys', ms', hreach, ha', hval⟩ :=
    runs_to_halt xs a 1 b 0 ys [] (le_refl 1) (Nat.zero_le a) (Or.inr hxs)
  obtain ⟨n, hsteps⟩ := hreach
  obtain ⟨fuel, tr, hrun⟩ := run_of_reaches n
    ⟨tapeOf a xs 1 ys [] b, 0, State.FindPlus, additionRules⟩
    ⟨tapeOf a' [] p' ys' ms' b', a' - 1, State.Halt, additionRules⟩
    (fun _ => rfl) hsteps rfl
  refine ⟨fuel, tr,
    ⟨tapeOf a' [] p' ys' ms' b', a' - 1, State.Halt, additionRules⟩, ?_, rfl⟩
  rw [TuringMachine.new, initTape_eq]
  exact hrun

/-- Witness for C2: the tape `_ 1 0 + 1 1 _` (2 + 3). -/
theorem addition_terminates_witness :
    ∃ fuel tr mf,
      TuringMachine.run fuel
        (TuringMachine.new (initTape 1 [true, false] [true, true] 1)
          additionRules) = some (tr, mf) ∧
      mf.state = State.Halt :=
  addition_terminates 1 1 [true, false] [true, true] (by simp) (by simp)

/-- C9: for every tape and rule table, `TuringMachine::new` yields head
index 0 and control state `FindPlus`, with the supplied tape and rules. -/
theorem new_initial_configuration (tape : List Char)
    (rules : State → Char → Option (Char × Direction × State)) :
    (TuringMachine.new tape rules).head = 0 ∧
    (TuringMachine.new tape rules).state = State.FindPlus ∧
    (TuringMachine.new tape rules).tape = tape ∧
    (TuringMachine.new tape rules).rules = rules :=
  ⟨rfl, rfl, rfl, rfl⟩

/-- C5: in every configuration whose rule table has no entry for the current
(state, symbol) pair, one step transitions to `Halt` and leaves the tape and
the head exactly unchanged. -/
theorem no_rule_halts (m : TuringMachine) (sym : Char)
    (hsym : m.tape[m.head]? = some sym)
    (hr : m.rules m.state sym = none) :
    m.step = some ⟨m.tape, m.head, State.Halt, m.rules⟩ := by
  obtain ⟨t, h, s, R⟩ := m
  simp only [TuringMachine.step] at *
  rw [hsym]
  simp [hr]

/-- Witness for C5: the addition rule table has no entry for `FindPlus`
reading `'x'`, so the machine halts there without changing anything. -/
theorem no_rule_halts_witness :
    TuringMachine.step ⟨['x'], 0, State.FindPlus, additionRules⟩ =
      some ⟨['x'], 0, State.Halt, additionRules⟩ :=
  no_rule_halts ⟨['x'], 0, State.FindPlus, additionRules⟩ 'x' rfl rfl

/-- C10: for a machine whose rule table has no entry keyed on `Halt` (as is
the case for the hardcoded addition table), a step taken in state `Halt`
returns the machine completely unchanged. -/
theorem halt_step_noop :
    (∀ c, additionRules State.Halt c = none) ∧
    ∀ (m : TuringMachine) (sym : Char),
      (∀ c, m.rules State.Halt c = none) →
      m.state = State.Halt →
      m.tape[m.head]? = some sym →
      m.step = some m := by
  refine ⟨fun _ => rfl, ?_⟩
  intro m sym hno hstate hsym
  obtain ⟨t, h, s, R⟩ := m
  simp only at hstate
  subst hstate
  simp only [TuringMachine.step] at *
  rw [hsym]
  simp [hno sym]

/-- Witness for C10: a halted machine with the addition rule table is left
unchanged by a step. -/
theorem halt_step_noop_witness :
    TuringMachine.step ⟨['_'], 0, State.Halt, additionRules⟩ =
      some ⟨['_'], 0, State.Halt, additionRules⟩ :=
  halt_step_noop.2 ⟨['_'], 0, State.Halt, additionRules⟩ '_' (fun _ => rfl) rfl rfl

/-- C3 counterexample: the claim says that in state `Carry` a marked one
`'I'` is rewritten to `'O'` with the state staying `Carry`.  In fact the
`Carry` rules are keyed on the plain digits: on `'I'` no rule applies, so
the concrete configuration `(['I', '1'], 0, Carry)` halts with its tape
unchanged, and on `'O'` there is no rule either. -/
theorem carry_on_marked_halts :
    TuringMachine.step ⟨['I', '1'], 0, State.Carry, additionRules⟩ =
      some ⟨['I', '1'], 0, State.Halt, additionRules⟩ ∧
    State.Halt ≠ State.Carry ∧
    additionRules State.Carry 'I' = none ∧
    additionRules State.Carry 'O' = none := by
  refine ⟨rfl, by decide, rfl, rfl⟩

/-- C3 amended: in state `Carry`, a step on a plain `'1'` writes a plain
`'0'`, moves left and stays in `Carry`; a step on a plain `'0'` or on the
separator `'+'` writes a plain `'1'`, moves left and transitions to
`BackToStart`; the marked symbols `'I'`/`'O'` have no `Carry` rule. -/
theorem carry_step_behaviour (front rest : List Char) (hfront : front ≠ []) :
    TuringMachine.step ⟨front ++ '1' :: rest, front.length, State.Carry, additionRules⟩ =
      some ⟨front ++ '0' :: rest, front.length - 1, State.Carry, additionRules⟩ ∧
    TuringMachine.step ⟨front ++ '0' :: rest, front.length, State.Carry, additionRules⟩ =
      some ⟨front ++ '1' :: rest, front.length - 1, State.BackToStart, additionRules⟩ ∧
    TuringMachine.step ⟨front ++ '+' :: rest, front.length, State.Carry, additionRules⟩ =
      some ⟨front ++ '1' :: rest, front.length - 1, State.BackToStart, additionRules⟩ ∧
    additionRules State.Carry 'I' = none ∧
    additionRules State.Carry 'O' = none :=
  ⟨TuringMachine.step_left _ _ _ _ _ _ _ rfl hfront,
    TuringMachine.step_left _ _ _ _ _ _ _ rfl hfront,
    TuringMachine.step_left _ _ _ _ _ _ _ rfl hfront, rfl, rfl⟩

/-- Witness for the amended C3 statement at a concrete configuration. -/
theorem carry_step_behaviour_witness :
    TuringMachine.step ⟨['_', '1'], 1, State.Carry, additionRules⟩ =
      some ⟨['_', '0'], 0, State.Carry, additionRules⟩ ∧
    TuringMachine.step ⟨['_', '0'], 1, State.Carry, additionRules⟩ =
      some ⟨['_', '1'], 0, State.BackToStart, additionRules⟩ ∧
    TuringMachine.step ⟨['_', '+'], 1, State.Carry, additionRules⟩ =
      some ⟨['_', '1'], 0, State.BackToStart, additionRules⟩ ∧
    additionRules State.Carry 'I' = none ∧
    additionRules State.Carry 'O' = none :=
  carry_step_behaviour ['_'] [] (by simp)

/-- C6: from any configuration whose head is inside the tape, a step never
fails (the read is in bounds) and leaves the head inside the (possibly
grown) tape again. -/
theorem head_stays_in_bounds (m : TuringMachine)
    (hh : m.head < m.tape.length) :
    ∃ m', m.step = some m' ∧ m'.head < m'.tape.length := by
  obtain ⟨t, h, s, R⟩ := m
  simp only at hh
  have hsym : t[h]? = some t[h] := List.getElem?_eq_getElem hh
  cases hrule : R s t[h] with
  | none =>
    refine ⟨⟨t, h, State.Halt, R⟩, ?_, hh⟩
    simp only [TuringMachine.step]
    rw [hsym]
    simp [hrule]
  | some v =>
    obtain ⟨w, d, s'⟩ := v
    cases d with
    | Left =>
      by_cases h0 : 0 < h
      · refine ⟨⟨t.set h w, h - 1, s', R⟩, ?_, ?_⟩
        · simp only [TuringMachine.step]
          rw [hsym]
          simp [hrule, h0]
        · simp only [List.length_set]
          omega
      · refine ⟨⟨'_' :: t.set h w, 0, s', R⟩, ?_, ?_⟩
        · simp only [TuringMachine.step]
          rw [hsym]
          simp [hrule, h0]
        · simp only [List.length_cons, List.length_set]
          omega
    | Right =>
      by_cases hend : t.length ≤ h + 1
      · refine ⟨⟨t.set h w ++ ['_'], h + 1, s', R⟩, ?_, ?_⟩
        · simp only [TuringMachine.step]
          rw [hsym]
          simp [hrule, hend]
        · simp only [List.length_append, List.length_set, List.length_cons,
            List.length_nil]
          omega
      · refine ⟨⟨t.set h w, h + 1, s', R⟩, ?_, ?_⟩
        · simp only [TuringMachine.step]
          rw [hsym]
          simp [hrule, hend]
        · simp only [List.length_set]
          omega

/-- Witness for C6 at a concrete in-bounds configuration. -/
theorem head_stays_in_bounds_witness :
    ∃ m', TuringMachine.step ⟨['_', '+'], 0, State.FindPlus, additionRules⟩ =
        some m' ∧ m'.head < m'.tape.length :=
  head_stays_in_bounds ⟨['_', '+'], 0, State.FindPlus, additionRules⟩ (by simp)

/-- C7: when a rule fires, the head moves as the spec describes: on `Right`
the head increments and a blank is appended exactly when the new index
equals the tape length; on `Left` with positive head the head decrements;
on `Left` at head 0 a blank is inserted at the left end and the head stays
at 0.  Growth always adds exactly one cell. -/
theorem head_movement (m : TuringMachine) (sym w : Char) (d : Direction)
    (s' : State) (hh : m.head < m.tape.length)
    (hsym : m.tape[m.head]? = some sym)
    (hr : m.rules m.state sym = some (w, d, s')) :
    ∃ m', m.step = some m' ∧
      (d = Direction.Right →
        m'.head = m.head + 1 ∧
        (m.head + 1 = m.tape.length →
          m'.tape = m.tape.set m.head w ++ ['_'] ∧
          m'.tape.length = m.tape.length + 1) ∧
        (m.head + 1 ≠ m.tape.length →
          m'.tape = m.tape.set m.head w ∧
          m'.tape.length = m.tape.length)) ∧
      (d = Direction.Left →
        (0 < m.head →
          m'.head = m.head - 1 ∧ m'.tape = m.tape.set m.head w ∧
          m'.tape.length = m.tape.length) ∧
        (m.head = 0 →
          m'.head = 0 ∧ m'.tape = '_' :: m.tape.set m.head w ∧
          m'.tape.length = m.tape.length + 1)) := by
  obtain ⟨t, h, s, R⟩ := m
  simp only at hsym hh hr ⊢
  cases d with
  | Left =>
    by_cases h0 : 0 < h
    · refine ⟨⟨t.set h w, h - 1, s', R⟩, ?_, ?_, ?_⟩
      · simp only [TuringMachine.step]
        rw [hsym]
        simp [hr, h0]
      · intro hd; cases hd
      · intro _
        refine ⟨fun _ => ⟨rfl, rfl, by simp⟩, fun hz => absurd hz (by omega)⟩
    · have hz : h = 0 := by omega
      refine ⟨⟨'_' :: t.set h w, 0, s', R⟩, ?_, ?_, ?_⟩
      · simp only [TuringMachine.step]
        rw [hsym]
        simp [hr, h0]
      · intro hd; cases hd
      · intro _
        refine ⟨fun hp => absurd hp (by omega), fun _ => ⟨rfl, rfl, by simp⟩⟩
  | Right =>
    by_cases hend : h + 1 = t.length
    · have hge : t.length ≤ h + 1 := by omega
      refine ⟨⟨t.set h w ++ ['_'], h + 1, s', R⟩, ?_, ?_, ?_⟩
      · simp only [TuringMachine.step]
        rw [hsym]
        simp [hr, hge]
      · intro _
        refine ⟨rfl, fun _ => ⟨rfl, by simp⟩, fun hne => absurd hend hne⟩
      · intro hd; cases hd
    · have hlt : ¬ t.length ≤ h + 1 := by omega
      refine ⟨⟨t.set h w, h + 1, s', R⟩, ?_, ?_, ?_⟩
      · simp only [TuringMachine.step]
        rw [hsym]
        simp [hr, hlt]
      · intro _
        refine ⟨rfl, fun heq => absurd heq hend, fun _ => ⟨rfl, by simp⟩⟩
      · intro hd; cases hd

/-- C4 counterexample: the hardcoded example tape holds the operands
`1010011011` (decimal 667) and `1011` (decimal 11), not 1387 and 11 as the
claim states.  The machine halts with the second-operand region reading
`1010100110`, which is 678 = 667 + 11, and 678 is not the claimed 1398. -/
theorem example_sum_mismatch :
    (TuringMachine.stepsN 300 (TuringMachine.new exampleTape additionRules)).map
        TuringMachine.cfg = some (exampleFinalTape, 0, State.Halt) ∧
    exampleFinalTape =
      '_' :: (List.replicate 5 '+' ++ sumBools.map markChar ++ ['_']) ∧
    exampleTape = initTape 1 op1Bools op2Bools 1 ∧
    boolsVal sumBools = 678 ∧
    boolsVal op1Bools = 667 ∧
    boolsVal op2Bools = 11 ∧
    (667 : Nat) ≠ 1387 ∧ (678 : Nat) ≠ 1398 := by
  refine ⟨?_, rfl, by decide, by decide, by decide, by decide, by decide, by decide⟩
  rw [exampleRun_eq]
  rfl

/-- C4 amended: on the hardcoded example tape (operands 667 and 11) the
machine halts with the second-operand region, once unmarked, reading the
binary representation of 667 + 11 = 678. -/
theorem example_run_amended :
    exampleTape = initTape 1 op1Bools op2Bools 1 ∧
    ∃ mf, (TuringMachine.new exampleTape additionRules).Reaches mf ∧
      mf.state = State.Halt ∧
      mf.tape = '_' :: (List.replicate 5 '+' ++ sumBools.map markChar ++ ['_']) ∧
      boolsVal sumBools = boolsVal op1Bools + boolsVal op2Bools := by
  exact ⟨by decide, ⟨exampleFinalTape, 0, State.Halt, additionRules⟩,
    ⟨300, exampleRun_eq⟩, rfl, rfl, by decide⟩

/-- C8: whenever the run loop terminates, it has emitted exactly one trace
record per executed step, each showing the configuration (tape, head, state)
before that step, followed by exactly one final record showing the terminal
configuration after `Halt` is reached. -/
theorem run_emits_trace :
    ∀ (fuel : Nat) (m : TuringMachine)
      (tr : List (List Char × Nat × State)) (mf : TuringMachine),
      TuringMachine.run fuel m = some (tr, mf) →
      mf.state = State.Halt ∧
      ∃ n, TuringMachine.stepsN n m = some mf ∧ tr.length = n + 1 ∧
        ∀ i (hi : i < tr.length), ∃ mi,
          TuringMachine.stepsN i m = some mi ∧
          tr.get ⟨i, hi⟩ = mi.cfg ∧ (i < n → mi.state ≠ State.Halt) := by
  intro fuel
  induction fuel with
  | zero => intro m tr mf h; simp [TuringMachine.run] at h
  | succ fuel ih =>
    intro m tr mf h
    by_cases hs : m.state = State.Halt
    · rw [TuringMachine.run, if_pos hs] at h
      obtain ⟨rfl, rfl⟩ : [m.cfg] = tr ∧ m = mf := by
        simpa [Prod.ext_iff] using h
      refine ⟨hs, 0, rfl, rfl, ?_⟩
      intro i hi
      have hi0 : i = 0 := by simpa using hi
      subst hi0
      exact ⟨m, rfl, rfl, by omega⟩
    · rw [TuringMachine.run, if_neg hs] at h
      cases hstep : m.step with
      | none => rw [hstep] at h; simp at h
      | some m₁ =>
        rw [hstep] at h
        simp only [Option.some_bind] at h
        cases hrun : TuringMachine.run fuel m₁ with
        | none => rw [hrun] at h; simp at h
        | some p =>
          obtain ⟨tr₀, mf₀⟩ := p
          rw [hrun] at h
          obtain ⟨rfl, rfl⟩ : m.cfg :: tr₀ = tr ∧ mf₀ = mf := by
            simpa [Prod.ext_iff] using h
          obtain ⟨hhalt, n₀, hsteps, hlen, htr⟩ := ih m₁ tr₀ mf₀ hrun
          refine ⟨hhalt, n₀ + 1, ?_, by simp [hlen], ?_⟩
          · show TuringMachine.stepsN (n₀ + 1) m = some mf₀
            simp [TuringMachine.stepsN, hstep, hsteps]
          · intro i hi
            cases i with
            | zero => exact ⟨m, rfl, rfl, fun _ => hs⟩
            | succ j =>
              have hj : j < tr₀.length := by simpa using hi
              obtain ⟨mi, hmi, hcfg, hne⟩ := htr j hj
              refine ⟨mi, ?_, ?_, ?_⟩
              · simp [TuringMachine.stepsN, hstep, hmi]
              · simpa using hcfg
              · intro hlt
                exact hne (by omega)

/-- Witness for C8: a two-record trace on a machine that halts after one
step (no rule for `'x'` in `FindPlus`). -/
theorem run_emits_trace_witness :
    (⟨['x'], 0, State.Halt, additionRules⟩ : TuringMachine).state = State.Halt ∧
    ∃ n, TuringMachine.stepsN n ⟨['x'], 0, State.FindPlus, additionRules⟩ =
        some ⟨['x'], 0, State.Halt, additionRules⟩ ∧
      ([(['x'], 0, State.FindPlus), (['x'], 0, State.Halt)] :
        List (List Char × Nat × State)).length = n + 1 ∧
      ∀ i (hi : i < ([(['x'], 0, State.FindPlus), (['x'], 0, State.Halt)] :
          List (List Char × Nat × State)).length), ∃ mi,
        TuringMachine.stepsN i ⟨['x'], 0, State.FindPlus, additionRules⟩ = some mi ∧
        ([(['x'], 0, State.FindPlus), (['x'], 0, State.Halt)] :
          List (List Char × Nat × State)).get ⟨i, hi⟩ = mi.cfg ∧
        (i < n → mi.state ≠ State.Halt) :=
  run_emits_trace 3 ⟨['x'], 0, State.FindPlus, additionRules⟩
    [(['x'], 0, State.FindPlus), (['x'], 0, State.Halt)]
    ⟨['x'], 0, State.Halt, additionRules⟩ rfl

/-- Witness for C7: the left move at head 0 (the insert-a-blank case) on a
concrete configuration. -/
theorem head_movement_witness :
    ∃ m', TuringMachine.step ⟨['+', '1'], 0, State.FindPlus, additionRules⟩ =
        some m' ∧
      (Direction.Left = Direction.Right →
        m'.head = 0 + 1 ∧
        (0 + 1 = (['+', '1'] : List Char).length →
          m'.tape = (['+', '1'] : List Char).set 0 '+' ++ ['_'] ∧
          m'.tape.length = (['+', '1'] : List Char).length + 1) ∧
        (0 + 1 ≠ (['+', '1'] : List Char).length →
          m'.tape = (['+', '1'] : List Char).set 0 '+' ∧
          m'.tape.length = (['+', '1'] : List Char).length)) ∧
      (Direction.Left = Direction.Left →
        (0 < 0 →
          m'.head = 0 - 1 ∧ m'.tape = (['+', '1'] : List Char).set 0 '+' ∧
          m'.tape.length = (['+', '1'] : List Char).length) ∧
        (0 = 0 →
          m'.head = 0 ∧ m'.tape = '_' :: (['+', '1'] : List Char).set 0 '+' ∧
          m'.tape.length = (['+', '1'] : List Char).length + 1)) :=
  head_movement ⟨['+', '1'], 0, State.FindPlus, additionRules⟩ '+' '+'
    Direction.Left State.GetLast (by simp) rfl rfl

end BinAdd

